import Mathlib

/-!
# Verification of the rebaseplan branch-reconciliation engine

Shallow embedding of `src/rebaseplan/rebaseplan.py`: the reflog model
(`branch_reflog`), the six-state branch reconciler (`branch_sync_state`),
the sync orchestrators (`sync_local`, `sync_remote`) with the dry-run
policy and the checkout-restoration context manager, and the rebase tag
planner (`remove_old_tags`, `tag_last_branches`).

Git itself is modelled as a repository record of pure query functions
(branch listing, ref resolution, reflog contents, merge-base); process
invocations and prints are reified as an effect trace.
-/

namespace Rebaseplan

/-- One reflog entry, as built by `branch_reflog.__init__`:
`ReflogEntry(*ref.split(maxsplit=1), not i, i)` where `i` is the
enumeration index of the reflog output line. -/
structure ReflogEntry where
  commit_id : String
  reflog_name : String
  current_branch : Bool
  i : Nat
deriving DecidableEq, Repr

/-- The entry construction of `branch_reflog.__init__`: line `i` of the
`git reflog show` output (already split into `(commit_id, label)`, the
`maxsplit=1` split) becomes `ReflogEntry(commit_id, label, not i, i)`.
`mkEntries k lines` enumerates `lines` starting at index `k`; the
constructor uses `k = 0` (Python `enumerate`). -/
def mkEntries : Nat → List (String × String) → List ReflogEntry
  | _, [] => []
  | k, (c, n) :: rest => ⟨c, n, k == 0, k⟩ :: mkEntries (k + 1) rest

/-- The `branch_reflog` class: branch name plus the materialized reflog. -/
structure branch_reflog where
  branch : String
  reflog : List ReflogEntry
deriving DecidableEq, Repr

/-- `branch_reflog.__init__`: fetch the reflog lines of `branch` (given
here pre-split into `(commit_id, label)` pairs) and enumerate them. -/
def branch_reflog.init (branch : String) (lines : List (String × String)) :
    branch_reflog :=
  ⟨branch, mkEntries 0 lines⟩

/-- `branch_reflog.latest_of`: scan the reflog in order (newest first,
i.e. increasing index) and return the first entry whose `commit_id` is a
member of `commit_ids`; `None` if no entry matches.  (The call sites pass
either a tuple of commit ids or a single full-length commit id; Python's
`in` on a string of the same fixed length as the probe degenerates to
equality, i.e. to membership in the singleton list.) -/
def branch_reflog.latest_of (r : branch_reflog) (commit_ids : List String) :
    Option ReflogEntry :=
  r.reflog.find? (fun e => commit_ids.contains e.commit_id)

/-- `branch_reflog.commit_ids`: all commit identifiers in the reflog, in
order. -/
def branch_reflog.commit_ids (r : branch_reflog) : List String :=
  r.reflog.map (·.commit_id)


/- ### The branch reconciler -/

/-- `BranchSyncStatus`, an `IntEnum` with `auto()` values 1..6 in
declaration order. -/
inductive BranchSyncStatus
  | NEW_LOCAL
  | UNRELATED
  | UPTODATE
  | REMOTE_MODIFIED
  | LOCAL_MODIFIED
  | CONFLICTED
deriving DecidableEq, Repr

/-- The `IntEnum` integer value of each status (`enum.auto()` assigns
1..6 in declaration order); this is the comparison key Python uses when
sorting states. -/
def BranchSyncStatus.toNat : BranchSyncStatus → Nat
  | .NEW_LOCAL => 1
  | .UNRELATED => 2
  | .UPTODATE => 3
  | .REMOTE_MODIFIED => 4
  | .LOCAL_MODIFIED => 5
  | .CONFLICTED => 6

/-- `BranchSyncState`: the reconciliation result for one branch pair.
`status` starts as `None` in the constructor and is filled by
`_replace` before each `yield`. -/
structure BranchSyncState where
  status : Option BranchSyncStatus
  local_branch : String
  remote_branch : String
  local_reflog : Option ReflogEntry := none
  remote_reflog : Option ReflogEntry := none
deriving DecidableEq, Repr

/-- The repository as seen through the read-only git queries the
reconciler issues: the remote-branch listing
(`list_branches` with `--remote --no-merged main`), local branch
existence (`branch_exists`), ref resolution (`ref_sha`), and reflog
contents per ref (lines pre-split into `(commit_id, label)`). -/
structure Repo where
  remoteBranches : List String
  branchExists : String → Bool
  sha : String → String
  reflogLines : String → List (String × String)

/-- The per-pair body of `branch_sync_state`: classify one
(remote, local) pair.  Mirrors the `if`/`elif` chain of the source:
`NEW_LOCAL` when no local branch exists; otherwise look up the local
tip in the remote reflog and the remote tip in the local reflog
(`latest_of(ref_sha(...))`, a singleton probe); `UPTODATE` when the
remote-side match is the remote's current position, `REMOTE_MODIFIED`
for a historical remote-side match, `LOCAL_MODIFIED` for a local-side
match only; otherwise a second pass probes each reflog with the other
side's full `commit_ids` set, giving `UNRELATED` when both directions
miss and `CONFLICTED` otherwise. -/
def classify (repo : Repo) (remote_branch local_branch : String) :
    BranchSyncState :=
  if repo.branchExists local_branch = false then
    { status := some .NEW_LOCAL, local_branch := local_branch,
      remote_branch := remote_branch }
  else
    let remote_reflog :=
      branch_reflog.init remote_branch (repo.reflogLines remote_branch)
    let local_reflog :=
      branch_reflog.init local_branch (repo.reflogLines local_branch)
    let rfound := remote_reflog.latest_of [repo.sha local_branch]
    let lfound := local_reflog.latest_of [repo.sha remote_branch]
    match rfound with
    | some e =>
      if e.current_branch then
        { status := some .UPTODATE, local_branch := local_branch,
          remote_branch := remote_branch, local_reflog := lfound,
          remote_reflog := rfound }
      else
        { status := some .REMOTE_MODIFIED, local_branch := local_branch,
          remote_branch := remote_branch, local_reflog := lfound,
          remote_reflog := rfound }
    | none =>
      match lfound with
      | some _ =>
        { status := some .LOCAL_MODIFIED, local_branch := local_branch,
          remote_branch := remote_branch, local_reflog := lfound,
          remote_reflog := rfound }
      | none =>
        let rfound2 := remote_reflog.latest_of local_reflog.commit_ids
        let lfound2 := local_reflog.latest_of remote_reflog.commit_ids
        match rfound2, lfound2 with
        | none, none =>
          { status := some .UNRELATED, local_branch := local_branch,
            remote_branch := remote_branch, local_reflog := none,
            remote_reflog := none }
        | r2, l2 =>
          { status := some .CONFLICTED, local_branch := local_branch,
            remote_branch := remote_branch, local_reflog := l2,
            remote_reflog := r2 }

/-- `branch_sync_state`: for every listed remote branch under the
upstream prefix (`branch.startswith(upstream + "/")`, a character-level
prefix test), strip the prefix (`remote_branch[len(upstream)+1:]`,
character slicing) to get the local branch name and classify the
pair. -/
def branch_sync_state (repo : Repo) (upstream : String) :
    List BranchSyncState :=
  (repo.remoteBranches.filter
      (fun b => (upstream ++ "/").data.isPrefixOf b.data)).map
    (fun rb => classify repo rb (String.mk (rb.data.drop
      (upstream.length + 1))))

/-- Concrete repository for witnesses: local `feature` is at commit `A`,
which is also the current position of `origin/feature`. -/
def repoUpToDate : Repo where
  remoteBranches := ["origin/feature"]
  branchExists := fun b => b == "feature"
  sha := fun b => if b == "feature" then "A" else "B"
  reflogLines := fun b =>
    if b == "origin/feature" then [("A", "of0"), ("C", "of1")]
    else [("A", "f0")]

/-- Concrete repository for witnesses: local `feature` (history `[D, A]`)
and `origin/feature` (history `[E, A]`) share only the historical commit
`A`. -/
def repoConflicted : Repo where
  remoteBranches := ["origin/feature"]
  branchExists := fun b => b == "feature"
  sha := fun b => if b == "feature" then "D" else "E"
  reflogLines := fun b =>
    if b == "origin/feature" then [("E", "of0"), ("A", "of1")]
    else [("D", "f0"), ("A", "f1")]

/- ### The rebase tag planner -/

/-- The repository as seen by the tag planner: the branch listing
(`list_branches`), ref resolution for branches and reflog labels
(`git rev-parse` on refs that are not the planner's own tags),
merge-base on commit ids, and the reflog label of each output line of
`git reflog show branch` (the token parsed by `head_reflog`). -/
structure PlanRepo where
  branches : List String
  sha : String → String
  mergeBase : String → String → String
  reflogLabels : String → List String

/-- The planner's tag namespace (`refs/tags/rebase/last/`, short-name
form). -/
def nsRoot : String := "rebase/last/"

/-- Whether a tag short name lies in the planner's namespace: the
`for-each-ref refs/tags/rebase/last/` path selection, modelled as a
character-level prefix test. -/
def inNamespace (n : String) : Bool := nsRoot.data.isPrefixOf n.data

/-- The repository's tag store: tag short names associated with the
commit ids they point at. -/
abbrev TagStore := List (String × String)

/-- `git tag -f name sha`: force-create, replacing any tag of the same
name. -/
def createTag (store : TagStore) (name sha : String) : TagStore :=
  store.filter (fun p => !(p.1 == name)) ++ [(name, sha)]

/-- Resolve a tag name against the store. -/
def resolveTag (store : TagStore) (name : String) : Option String :=
  (store.find? (fun p => p.1 == name)).map (·.2)

/-- The `git for-each-ref refs/tags/rebase/last/ --format=%(refname:short)`
query: the namespace's tag names in store order. -/
def nsTags (store : TagStore) : List String :=
  (store.filter (fun p => inNamespace p.1)).map (·.1)

/-- The invocation `remove_old_tags` issues to list its namespace. -/
def forEachRefCmd : List String :=
  ["git", "for-each-ref", "refs/tags/rebase/last/",
   "--format=%(refname:short)"]

/-- `remove_old_tags`: query the namespace; if no tag is there, return
without running the delete; otherwise run `git tag -d` on exactly the
listed tags.  Returns the new store and the issued git commands. -/
def remove_old_tags (store : TagStore) : TagStore × List (List String) :=
  let old_tags := nsTags store
  if old_tags.isEmpty then (store, [forEachRefCmd])
  else (store.filter (fun p => !(old_tags.contains p.1)),
        [forEachRefCmd, ["git", "tag", "-d"] ++ old_tags])

/-- `head_reflog branch n`: yield the branch name itself, then the
reflog labels of output lines `1..n-1` (the slice `splitlines()[1:n]`). -/
def head_reflog (repo : PlanRepo) (branch : String) (n : Nat) :
    List String :=
  branch :: (((repo.reflogLabels branch).drop 1).take (n - 1))

/-- Python `set.add` on the model's insertion-ordered set
representation: a no-op when the element is already present. -/
def setAdd (s : List String) (x : String) : List String :=
  if s.contains x then s else s ++ [x]

/-- Accumulator of the branch loop of `tag_last_branches`: the evolving
tag store and the `tags`, `bases` and `last_bases` collections. -/
structure LoopAcc where
  store : TagStore
  tags : List String
  bases : List String
  last_bases : List String

/-- The inner loop `for i, last_sha in enumerate(log[1:], 1)`: create
the historical marker `rebase/last/{branch}/{i}` at the label's commit
and record the marker's merge-base with main into `last_bases`. -/
def tagBranchEntries (repo : PlanRepo) (main branch : String) :
    Nat → List String → LoopAcc → LoopAcc
  | _, [], acc => acc
  | i, last_sha :: rest, acc =>
    let tag := nsRoot ++ (branch ++ "/" ++ toString i)
    let store' := createTag acc.store tag (repo.sha last_sha)
    let lb := repo.mergeBase ((resolveTag store' tag).getD "")
      (repo.sha main)
    tagBranchEntries repo main branch (i + 1) rest
      { store := store', tags := acc.tags ++ [tag], bases := acc.bases,
        last_bases := setAdd acc.last_bases lb }

/-- The outer loop over the branch listing: record each branch's
merge-base with main into `bases`, then process the branch's reflog
window of `1 + reflog_depth` entries. -/
def tagBranchesLoop (repo : PlanRepo) (main : String) (depth : Nat) :
    List String → LoopAcc → LoopAcc
  | [], acc => acc
  | branch :: rest, acc =>
    let acc1 := { acc with
      bases := setAdd acc.bases
        (repo.mergeBase (repo.sha branch) (repo.sha main)) }
    let log := head_reflog repo branch (1 + depth)
    let acc2 := tagBranchEntries repo main branch 1 (log.drop 1) acc1
    tagBranchesLoop repo main depth rest acc2

/-- `for i, base_sha in enumerate(...)` with a `git tag -f` per element:
create one enumerated marker per element, returning the new store and
the created marker names. -/
def createEnumTags (pre : String) (store : TagStore) :
    Nat → List String → TagStore × List String
  | _, [] => (store, [])
  | i, sha :: rest =>
    let name := pre ++ toString i
    let r := createEnumTags pre (createTag store name sha) (i + 1) rest
    (r.1, name :: r.2)

/-- The branch-loop accumulator of a full `tag_last_branches` run, after
the initial cleanup. -/
def planAcc (repo : PlanRepo) (main : String) (depth : Nat)
    (store : TagStore) : LoopAcc :=
  tagBranchesLoop repo main depth repo.branches
    ⟨(remove_old_tags store).1, [], [], []⟩

/-- The result of `tag_last_branches`: the repository's tag store after
the run, plus the returned `(branches, tags, base_tags)` triple. -/
structure PlanResult where
  store : TagStore
  branches : List String
  tags : List String
  base_tags : List String

/-- `tag_last_branches`: cleanup, per-branch historical markers, then
one `__base__` marker per element of `bases` and one `__last_base__`
marker per element of `last_bases - bases`. -/
def tag_last_branches (repo : PlanRepo) (main : String) (depth : Nat)
    (store : TagStore) : PlanResult :=
  let acc := planAcc repo main depth store
  let r1 := createEnumTags (nsRoot ++ "__base__/") acc.store 0 acc.bases
  let lastOnly := acc.last_bases.filter (fun x => !(acc.bases.contains x))
  let r2 := createEnumTags (nsRoot ++ "__last_base__/") r1.1 0 lastOnly
  ⟨r2.1, repo.branches, acc.tags, r1.2 ++ r2.2⟩

/-- Concrete planner repository for witnesses: two branches whose
merge-bases with main coincide. -/
def repoPlan : PlanRepo where
  branches := ["b1", "b2"]
  sha := fun r => r
  mergeBase := fun _ _ => "M"
  reflogLabels := fun b => [b, b ++ "@the1"]

/- ### Sync orchestrators: state, effects, and the run monad -/

/-- One observable effect of a sync run: a line printed to stdout, a
line printed to stderr, or an executed git command. -/
inductive Eff
  | print (line : String)
  | eprint (line : String)
  | run (args : List String)
deriving DecidableEq, Repr

/-- Whether an effect is only output (no command execution). -/
def isPrint : Eff → Bool
  | .print _ => true
  | .eprint _ => true
  | .run _ => false

/-- The repository state threaded through a sync run: the currently
checked-out branch (`git branch --show-current`) and the trace of
effects so far. -/
structure GitS where
  current : String
  trace : List Eff
deriving DecidableEq, Repr

/-- The run monad: a `CalledProcessError` exception over the repository
state.  A value of `GitM α` maps a state to a result (ok or raised)
and the state reached. -/
def GitM (α : Type) : Type := GitS → Except Unit α × GitS

instance : Monad GitM where
  pure a := fun s => (Except.ok a, s)
  bind m f := fun s =>
    match m s with
    | (Except.ok a, s') => f a s'
    | (Except.error e, s') => (Except.error e, s')

/-- Raise (`raise` after the error report). -/
def throwErr : GitM Unit := fun s => (Except.error (), s)

/-- Print a line to stdout. -/
def printLine (l : String) : GitM Unit := fun s =>
  (Except.ok (), { s with trace := s.trace ++ [Eff.print l] })

/-- `format_command`: the space-joined command line (`shlex.quote` is
the identity on the plain tokens the orchestrators build). -/
def format_command (args : List String) : String :=
  " ".intercalate args

/-- The repository-state effect of an executed git command: `checkout`
switches the current branch (its last argument); the other commands the
orchestrators execute do not move the checkout. -/
def applyCmd (args : List String) (s : GitS) : GitS :=
  match args with
  | "git" :: "checkout" :: rest =>
    { s with current := rest.getLastD s.current }
  | _ => s

/-- `subprocess_run`: when the popped `dry_run` flag is true, print
`#   <command>` and do nothing else; otherwise execute the command
(recorded in the trace, with its state effect applied) and — with
`check=True` — print the error report and re-raise when the tool fails
(`fails` says which invocations fail). -/
def subprocess_run (fails : List String → Bool) (dry_run : Bool)
    (args : List String) : GitM Unit := fun s =>
  if dry_run then
    (Except.ok (),
     { s with trace := s.trace ++
        [Eff.print ("#   " ++ format_command args)] })
  else
    let s' := applyCmd args { s with trace := s.trace ++ [Eff.run args] }
    if fails args then
      (Except.error (),
       { s' with trace := s'.trace ++
          [Eff.eprint ("ERROR:  " ++ format_command args)] })
    else (Except.ok (), s')

/-- `get_current_branch`: the read-only `git branch --show-current`
query. -/
def get_current_branch : GitM String := fun s => (Except.ok s.current, s)

/-- `fetch`: `git fetch <upstream> --prune`, dry-run gated. -/
def fetch (fails : List String → Bool) (upstream : String)
    (dry_run : Bool) : GitM Unit :=
  subprocess_run fails dry_run ["git", "fetch", upstream, "--prune"]

/-- `retain_current_branch`: capture the current branch, run the body,
and on normal completion check out the captured branch again if the
current one differs.  The source is a `@contextlib.contextmanager`
generator with no `try`/`finally` around its `yield`: when the body
raises, the code after the `yield` does not run, so nothing is restored
on the failure path. -/
def retain_current_branch (fails : List String → Bool) (dry_run : Bool)
    (body : GitM Unit) : GitM Unit := do
  let current ← get_current_branch
  body
  let now ← get_current_branch
  if current ≠ now then
    subprocess_run fails dry_run ["git", "checkout", current]

/-- The `str()` of a `BranchSyncStatus` member, as `print` renders it. -/
def statusStr : BranchSyncStatus → String
  | .NEW_LOCAL => "BranchSyncStatus.NEW_LOCAL"
  | .UNRELATED => "BranchSyncStatus.UNRELATED"
  | .UPTODATE => "BranchSyncStatus.UPTODATE"
  | .REMOTE_MODIFIED => "BranchSyncStatus.REMOTE_MODIFIED"
  | .LOCAL_MODIFIED => "BranchSyncStatus.LOCAL_MODIFIED"
  | .CONFLICTED => "BranchSyncStatus.CONFLICTED"

/-- Display of an optional status. -/
def optStatusStr : Option BranchSyncStatus → String
  | none => "None"
  | some s => statusStr s

/-- Display of an optional reflog entry (the namedtuple repr, with
string quoting elided). -/
def reflogStr : Option ReflogEntry → String
  | none => "None"
  | some e =>
    "ReflogEntry(commit_id=" ++ e.commit_id ++ ", reflog_name=" ++
      e.reflog_name ++ ", current_branch=" ++
      (if e.current_branch then "True" else "False") ++ ", i=" ++
      toString e.i ++ ")"

/-- Lexicographic strict order on character lists by code point —
Python's string comparison. -/
def charListLt : List Char → List Char → Bool
  | [], [] => false
  | [], _ :: _ => true
  | _ :: _, [] => false
  | c :: cs, d :: ds =>
    if c.toNat < d.toNat then true
    else if d.toNat < c.toNat then false
    else charListLt cs ds

/-- Python `a < b` on strings. -/
def strLt (a b : String) : Bool := charListLt a.data b.data

/-- Python `a <= b` on strings (the order is total, so this is the
negation of the reversed strict order). -/
def strLe (a b : String) : Bool := !(charListLt b.data a.data)

/-- The Python tuple comparison `sorted` uses on `BranchSyncState`
values: status (`IntEnum` value), then local branch name, then remote
branch name.  (The trailing reflog fields are never reached by the
comparison for distinct stream entries.) -/
def stateLe (a b : BranchSyncState) : Bool :=
  let ra := (a.status.map BranchSyncStatus.toNat).getD 0
  let rb := (b.status.map BranchSyncStatus.toNat).getD 0
  if ra = rb then
    if a.local_branch = b.local_branch then
      strLe a.remote_branch b.remote_branch
    else strLt a.local_branch b.local_branch
  else decide (ra < rb)

/-- Stable insertion of `x` into `l`: `x` lands after every element
`y` with `le y x`, so equal elements keep their original order. -/
def insertS {α : Type} (le : α → α → Bool) (x : α) : List α → List α
  | [] => [x]
  | y :: ys => if le y x then y :: insertS le x ys else x :: y :: ys

/-- Stable insertion sort (the ordering semantics of Python's
`sorted`). -/
def insertionSort {α : Type} (le : α → α → Bool) : List α → List α
  | [] => []
  | x :: xs => insertS le x (insertionSort le xs)

/-- `sorted(branch_sync_state(...))`: Python's stable sort under the
tuple comparison. -/
def sortStates (l : List BranchSyncState) : List BranchSyncState :=
  insertionSort stateLe l

/-- One iteration of the `sync_local` loop body, after the separator:
report the state and apply the per-status action. -/
def sync_local_step (fails : List String → Bool) (dry_run : Bool)
    (st : BranchSyncState) : GitM Unit :=
  match st.status with
  | some .NEW_LOCAL => do
    printLine (optStatusStr st.status ++ " " ++ st.local_branch ++ " " ++
      st.remote_branch)
    subprocess_run fails dry_run
      ["git", "branch", "-q", "--track", st.local_branch,
       st.remote_branch]
  | some .REMOTE_MODIFIED => do
    printLine ("Switching " ++ optStatusStr st.status ++ " " ++
      st.local_branch ++ " to " ++ st.remote_branch)
    subprocess_run fails dry_run ["git", "checkout", "-q", st.local_branch]
    subprocess_run fails dry_run
      ["git", "reset", "-q", "--hard", st.remote_branch]
  | some .LOCAL_MODIFIED =>
    printLine (optStatusStr st.status ++ " " ++ st.local_branch ++
      " ahead of " ++ st.remote_branch ++ " = " ++ reflogStr st.local_reflog)
  | _ =>
    printLine (optStatusStr st.status ++ " " ++ st.local_branch ++ " " ++
      st.remote_branch)

/-- The `sync_local` loop over the sorted classification stream,
threading `last_status` for the group separator. -/
def sync_local_loop (fails : List String → Bool) (dry_run : Bool) :
    List BranchSyncState → Option BranchSyncStatus → GitM Unit
  | [], _ => pure ()
  | st :: rest, last => do
    if last ≠ st.status then
      printLine ""
    sync_local_step fails dry_run st
    sync_local_loop fails dry_run rest st.status

/-- `sync_local`: inside the checkout-restoration scope, fetch and then
walk the sorted classification stream, creating tracking branches for
`NEW_LOCAL`, hard-resetting `REMOTE_MODIFIED`, and only reporting the
rest. -/
def sync_local (repo : Repo) (upstream : String)
    (fails : List String → Bool) (dry_run : Bool) : GitM Unit :=
  retain_current_branch fails dry_run (do
    fetch fails upstream dry_run
    sync_local_loop fails dry_run
      (sortStates (branch_sync_state repo upstream)) none)

/-- The `sync_remote` loop: accumulate the local branch names of
`LOCAL_MODIFIED` entries into the force-push batch; report (but never
push) the rest, with `CONFLICTED` and `REMOTE_MODIFIED` reported even
without `verbose`. -/
def sync_remote_loop (verbose : Bool) :
    List BranchSyncState → Option BranchSyncStatus → List String →
    GitM (List String)
  | [], _, acc => pure acc
  | st :: rest, last, acc => do
    if last ≠ st.status then
      if verbose then
        printLine ""
    match st.status with
    | some .LOCAL_MODIFIED => do
      if verbose then
        printLine ("Will push " ++ st.local_branch ++ " ahead of " ++
          st.remote_branch ++ " = " ++ reflogStr st.local_reflog)
      sync_remote_loop verbose rest st.status (acc ++ [st.local_branch])
    | _ => do
      if verbose || (st.status == some .CONFLICTED ||
          st.status == some .REMOTE_MODIFIED) then
        printLine (optStatusStr st.status ++ " " ++ st.local_branch ++
          " " ++ st.remote_branch)
      sync_remote_loop verbose rest st.status acc

/-- The local branch names of the `LOCAL_MODIFIED` entries of a
classification stream, in stream order. -/
def pushesOfList (sts : List BranchSyncState) : List String :=
  (sts.filter
    (fun st => st.status == some BranchSyncStatus.LOCAL_MODIFIED)).map
    (·.local_branch)

/-- The force-push batch a run accumulates: the local branch names of
the sorted stream's `LOCAL_MODIFIED` entries, in order. -/
def force_pushes_of (repo : Repo) (upstream : String) : List String :=
  pushesOfList (sortStates (branch_sync_state repo upstream))

/-- `sync_remote`: fetch, walk the sorted stream accumulating the
force-push batch, then run one batched force-push — or print the no-op
message when nothing qualifies. -/
def sync_remote (repo : Repo) (upstream : String)
    (fails : List String → Bool) (dry_run : Bool) (verbose : Bool) :
    GitM Unit := do
  fetch fails upstream dry_run
  let force_pushes ← sync_remote_loop verbose
    (sortStates (branch_sync_state repo upstream)) none []
  if !force_pushes.isEmpty then
    subprocess_run fails dry_run
      (["git", "push", upstream, "-f"] ++ force_pushes)
  else
    printLine "Nothing to do"

/-- A run (value, final state) that completes normally from any start
state, leaving the checkout untouched and appending only output
effects to the trace. -/
def StepsTo {α : Type} (m : GitM α) (v : α) : Prop :=
  ∀ s, ∃ tr, m s = (Except.ok v, ⟨s.current, s.trace ++ tr⟩) ∧
    ∀ e ∈ tr, isPrint e = true

/-- Concrete repository for the C3 counterexample: `origin/feature` has
moved past the still-existing local `feature`, so `sync_local` switches
to it and hard-resets — and the reset fails. -/
def repoC3 : Repo where
  remoteBranches := ["origin/feature"]
  branchExists := fun b => b == "feature"
  sha := fun b => if b == "feature" then "A" else "B"
  reflogLines := fun b =>
    if b == "origin/feature" then [("B", "of0"), ("A", "of1")]
    else [("A", "f0")]

/-- Failure model for the C3 counterexample: exactly the hard reset of
`feature` to `origin/feature` fails. -/
def failsC3 (args : List String) : Bool :=
  args == ["git", "reset", "-q", "--hard", "origin/feature"]

/-- Concrete repository for the C5 witness: local `feature` has advanced
(history `[C, A]`) past `origin/feature` (still at `A`), a
`LOCAL_MODIFIED` pair. -/
def repoLocalMod : Repo where
  remoteBranches := ["origin/feature"]
  branchExists := fun b => b == "feature"
  sha := fun b => if b == "feature" then "C" else "A"
  reflogLines := fun b =>
    if b == "origin/feature" then [("A", "of0")]
    else [("C", "f0"), ("A", "f1")]

/-- The report lines a `sync_remote` run owes the user: one status line
per `CONFLICTED` or `REMOTE_MODIFIED` entry of the stream (the
`print(state.status, ...)` of the loop's else branch, whose condition
holds for these statuses even without `verbose`). -/
def reportsOf (sts : List BranchSyncState) : List Eff :=
  (sts.filter (fun st =>
      st.status == some BranchSyncStatus.CONFLICTED ||
      st.status == some BranchSyncStatus.REMOTE_MODIFIED)).map
    (fun st => Eff.print (optStatusStr st.status ++ " " ++
      st.local_branch ++ " " ++ st.remote_branch))

/-- Like `StepsTo`, with a list of effects the appended trace must
contain: a normal run, checkout untouched, print-only trace extension
that includes every required effect. -/
def StepsToWith {α : Type} (m : GitM α) (v : α) (req : List Eff) : Prop :=
  ∀ s, ∃ tr, m s = (Except.ok v, ⟨s.current, s.trace ++ tr⟩) ∧
    (∀ e ∈ tr, isPrint e = true) ∧ ∀ e ∈ req, e ∈ tr

/-- A two-pair repository exercising the reporting side of
`sync_remote`: `origin/feature` is `LOCAL_MODIFIED` (local went `A → C`)
and `origin/other` is `CONFLICTED` (histories `[D, B]` and `[E, B]`
share only the historical commit `B`). -/
def repoSyncRemote : Repo where
  remoteBranches := ["origin/feature", "origin/other"]
  branchExists := fun b => b == "feature" || b == "other"
  sha := fun b =>
    if b == "feature" then "C"
    else if b == "origin/feature" then "A"
    else if b == "other" then "D"
    else "E"
  reflogLines := fun b =>
    if b == "origin/feature" then [("A", "of0")]
    else if b == "feature" then [("C", "f0"), ("A", "f1")]
    else if b == "origin/other" then [("E", "oo0"), ("B", "oo1")]
    else [("D", "o0"), ("B", "o1")]

/- ## Theorems -/

/-- The classifier always fills the `status` field. -/
theorem classify_status_isSome (repo : Repo) (rb lb : String) :
    ((classify repo rb lb).status).isSome = true := by
  rw [classify]
  split
  · rfl
  · dsimp only
    split
    · split <;> rfl
    · split
      · rfl
      · split <;> rfl

/- ### Structural lemmas about the constructed reflog -/

theorem mkEntries_length (k : Nat) (lines : List (String × String)) :
    (mkEntries k lines).length = lines.length := by
  induction lines generalizing k with
  | nil => rfl
  | cons hd tl ih => simp [mkEntries, ih]

theorem mkEntries_get (k : Nat) (lines : List (String × String)) (j : Nat)
    (h : j < (mkEntries k lines).length) :
    ((mkEntries k lines).get ⟨j, h⟩).i = k + j := by
  induction lines generalizing k j with
  | nil => simp [mkEntries] at h
  | cons hd tl ih =>
    cases j with
    | zero => simp [mkEntries]
    | succ j' =>
      have h' : j' < (mkEntries (k + 1) tl).length := by
        simpa [mkEntries] using h
      have := ih (k + 1) j' h'
      simp only [mkEntries, List.get_cons_succ]
      omega

theorem mkEntries_mem_i (k : Nat) (lines : List (String × String))
    (e : ReflogEntry) (he : e ∈ mkEntries k lines) : k ≤ e.i := by
  induction lines generalizing k with
  | nil => simp [mkEntries] at he
  | cons hd tl ih =>
    simp only [mkEntries, List.mem_cons] at he
    rcases he with rfl | he
    · simp
    · exact le_trans (Nat.le_succ k) (ih (k + 1) he)

theorem mkEntries_current_iff (k : Nat) (lines : List (String × String))
    (e : ReflogEntry) (he : e ∈ mkEntries k lines) :
    e.current_branch = true ↔ e.i = k ∧ k = 0 := by
  induction lines generalizing k with
  | nil => simp [mkEntries] at he
  | cons hd tl ih =>
    simp only [mkEntries, List.mem_cons] at he
    rcases he with rfl | he
    · simp [beq_iff_eq]
    · have hk := mkEntries_mem_i (k + 1) tl e he
      rw [ih (k + 1) he]
      omega

theorem mkEntries_find?_min (k : Nat) (lines : List (String × String))
    (p : ReflogEntry → Bool) (e : ReflogEntry)
    (hf : (mkEntries k lines).find? p = some e) :
    ∀ e' ∈ mkEntries k lines, p e' = true → e.i ≤ e'.i := by
  induction lines generalizing k with
  | nil => simp [mkEntries, List.find?] at hf
  | cons hd tl ih =>
    simp only [mkEntries, List.find?] at hf
    by_cases hp : p ⟨hd.1, hd.2, k == 0, k⟩ = true
    · rw [hp] at hf
      simp only [Option.some.injEq] at hf
      subst hf
      intro e' he' _
      simp only [mkEntries, List.mem_cons] at he'
      rcases he' with rfl | he'
      · simp
      · exact le_trans (Nat.le_succ k) (mkEntries_mem_i (k + 1) tl e' he')
    · rw [Bool.not_eq_true] at hp
      rw [hp] at hf
      intro e' he' hpe'
      simp only [mkEntries, List.mem_cons] at he'
      rcases he' with rfl | he'
      · rw [hpe'] at hp; cases hp
      · exact ih (k + 1) hf e' he' hpe'

/-- **C4**: `latest_of` returns none exactly when no entry's `commit_id`
is in the probe set, and otherwise returns an entry of the reflog whose
`commit_id` is in the probe set with the smallest position `i` among all
such entries (equivalently: the first match scanning newest to oldest). -/
theorem latest_of_correct (b : String) (lines : List (String × String))
    (cids : List String) :
    ((branch_reflog.init b lines).latest_of cids = none ↔
      ∀ e ∈ (branch_reflog.init b lines).reflog,
        cids.contains e.commit_id = false) ∧
    ∀ e, (branch_reflog.init b lines).latest_of cids = some e →
      e ∈ (branch_reflog.init b lines).reflog ∧
      cids.contains e.commit_id = true ∧
      ∀ e' ∈ (branch_reflog.init b lines).reflog,
        cids.contains e'.commit_id = true → e.i ≤ e'.i := by
  constructor
  · rw [branch_reflog.latest_of, List.find?_eq_none]
    simp
  · intro e hf
    rw [branch_reflog.latest_of] at hf
    refine ⟨List.mem_of_find?_eq_some hf, ?_, ?_⟩
    · have h2 := List.find?_some hf
      simpa using h2
    · exact mkEntries_find?_min 0 lines _ e hf

/-- Witness for C4 at a concrete reflog: probe {B, A} against the history
[A@0, B@1, A@2]; the lookup returns the position-0 entry, the minimal
match. -/
theorem latest_of_correct_witness :
    (⟨"A", "f0", true, 0⟩ : ReflogEntry) ∈
      (branch_reflog.init "feature"
        [("A", "f0"), ("B", "f1"), ("A", "f2")]).reflog ∧
    (["B", "A"] : List String).contains "A" = true ∧
    ∀ e' ∈ (branch_reflog.init "feature"
        [("A", "f0"), ("B", "f1"), ("A", "f2")]).reflog,
      (["B", "A"] : List String).contains e'.commit_id = true →
        (0 : Nat) ≤ e'.i :=
  (latest_of_correct "feature" [("A", "f0"), ("B", "f1"), ("A", "f2")]
    ["B", "A"]).2 ⟨"A", "f0", true, 0⟩ rfl

/-- **C8**: in a constructed reflog, entry `j` of the sequence has
position exactly `j` (so positions are strictly increasing from 0,
newest to oldest), an entry has position 0 iff it is marked current, and
a non-empty history has exactly one current entry. -/
theorem reflog_ordering_invariant (b : String)
    (lines : List (String × String)) :
    (∀ (j : Nat) (h : j < (branch_reflog.init b lines).reflog.length),
      ((branch_reflog.init b lines).reflog.get ⟨j, h⟩).i = j) ∧
    (∀ e ∈ (branch_reflog.init b lines).reflog,
      (e.i = 0 ↔ e.current_branch = true)) ∧
    (lines ≠ [] →
      ((branch_reflog.init b lines).reflog.filter
        (·.current_branch)).length = 1) := by
  refine ⟨?_, ?_, ?_⟩
  · intro j h
    simpa using mkEntries_get 0 lines j h
  · intro e he
    rw [mkEntries_current_iff 0 lines e he]
    simp
  · intro hne
    match lines with
    | [] => exact absurd rfl hne
    | (c, n) :: tl =>
      have htl : ∀ e ∈ mkEntries 1 tl, e.current_branch = false := by
        intro e he
        have := mkEntries_current_iff 1 tl e he
        rcases h : e.current_branch with _ | _
        · rfl
        · rw [this] at h; omega
      have : (mkEntries 1 tl).filter (·.current_branch) = [] := by
        rw [List.filter_eq_nil_iff]
        intro a ha
        simp [htl a ha]
      simp [branch_reflog.init, mkEntries, List.filter, this]

/-- Witness for C8's non-emptiness hypothesis at a concrete two-entry
history. -/
theorem reflog_ordering_invariant_witness :
    (((branch_reflog.init "x" [("A", "x0"), ("B", "x1")]).reflog.filter
      (·.current_branch)).length = 1) :=
  (reflog_ordering_invariant "x" [("A", "x0"), ("B", "x1")]).2.2
    (by decide)
/-- A current-marked entry of a constructed reflog heads the sequence,
so `find?` returns it whenever it matches the probe. -/
theorem find?_of_current (lines : List (String × String))
    (p : ReflogEntry → Bool) (e : ReflogEntry)
    (he : e ∈ mkEntries 0 lines) (hcur : e.current_branch = true)
    (hp : p e = true) :
    (mkEntries 0 lines).find? p = some e := by
  match lines with
  | [] => simp [mkEntries] at he
  | (c, n) :: tl =>
    simp only [mkEntries, List.mem_cons] at he
    rcases he with rfl | he
    · have hp' : p ⟨c, n, true, 0⟩ = true := hp
      simp [List.find?, hp']
    · have := (mkEntries_current_iff 1 tl e he).mp hcur
      omega

/-- **C1**: for every (remote, local) pair the classifier assigns exactly
one of the six statuses, and whenever the local branch exists and the
remote's reflog holds the local branch's current commit at the remote's
own current position (the entry marked current), the status is
`UPTODATE` — in particular never `CONFLICTED` (the current-position
match takes priority over any historical match). -/
theorem classify_complete_and_uptodate_priority (repo : Repo)
    (rb lb : String) :
    (∃! s : BranchSyncStatus, (classify repo rb lb).status = some s) ∧
    (repo.branchExists lb = true →
      ∀ e ∈ (branch_reflog.init rb (repo.reflogLines rb)).reflog,
        e.commit_id = repo.sha lb → e.current_branch = true →
          (classify repo rb lb).status = some .UPTODATE ∧
            (classify repo rb lb).status ≠ some .CONFLICTED) := by
  constructor
  · have h := classify_status_isSome repo rb lb
    obtain ⟨s, hs⟩ := Option.isSome_iff_exists.mp h
    refine ⟨s, hs, fun y hy => ?_⟩
    rw [hs] at hy
    injection hy with h'
    exact h'.symm
  · intro hex e he hcomm hcur
    have hrf : (branch_reflog.init rb (repo.reflogLines rb)).latest_of
        [repo.sha lb] = some e := by
      rw [branch_reflog.latest_of]
      exact find?_of_current _ _ _ he hcur (by simp [hcomm])
    have hst : (classify repo rb lb).status =
        some BranchSyncStatus.UPTODATE := by
      simp only [classify, hex, Bool.true_eq_false, if_false, hrf, hcur,
        if_true]
    refine ⟨hst, ?_⟩
    rw [hst]
    simp

/-- Witness for C1 at `repoUpToDate`: the current positions coincide,
so the pair is classified `UPTODATE` and not `CONFLICTED`. -/
theorem classify_complete_and_uptodate_priority_witness :
    (classify repoUpToDate "origin/feature" "feature").status =
        some BranchSyncStatus.UPTODATE ∧
      (classify repoUpToDate "origin/feature" "feature").status ≠
        some BranchSyncStatus.CONFLICTED :=
  (classify_complete_and_uptodate_priority repoUpToDate "origin/feature"
      "feature").2 (by decide) ⟨"A", "of0", true, 0⟩ (by decide) (by decide)
    (by decide)

/-- **C2**: when the local branch exists and neither reflog contains the
other side's current commit, the classifier's second lookup uses each
side's full `commit_ids` set: a match in either direction yields
`CONFLICTED`, and no match in either direction yields `UNRELATED`. -/
theorem second_lookup_conflict_or_unrelated (repo : Repo) (rb lb : String)
    (hex : repo.branchExists lb = true)
    (h1 : (branch_reflog.init rb (repo.reflogLines rb)).latest_of
        [repo.sha lb] = none)
    (h2 : (branch_reflog.init lb (repo.reflogLines lb)).latest_of
        [repo.sha rb] = none) :
    ((classify repo rb lb).status = some .CONFLICTED ↔
      ¬((branch_reflog.init rb (repo.reflogLines rb)).latest_of
          (branch_reflog.init lb (repo.reflogLines lb)).commit_ids = none ∧
        (branch_reflog.init lb (repo.reflogLines lb)).latest_of
          (branch_reflog.init rb (repo.reflogLines rb)).commit_ids =
            none)) ∧
    ((classify repo rb lb).status = some .UNRELATED ↔
      ((branch_reflog.init rb (repo.reflogLines rb)).latest_of
          (branch_reflog.init lb (repo.reflogLines lb)).commit_ids = none ∧
        (branch_reflog.init lb (repo.reflogLines lb)).latest_of
          (branch_reflog.init rb (repo.reflogLines rb)).commit_ids =
            none)) := by
  cases hr2 : (branch_reflog.init rb (repo.reflogLines rb)).latest_of
      (branch_reflog.init lb (repo.reflogLines lb)).commit_ids with
  | none =>
    cases hl2 : (branch_reflog.init lb (repo.reflogLines lb)).latest_of
        (branch_reflog.init rb (repo.reflogLines rb)).commit_ids with
    | none => simp [classify, hex, h1, h2, hr2, hl2]
    | some v => simp [classify, hex, h1, h2, hr2, hl2]
  | some v =>
    cases hl2 : (branch_reflog.init lb (repo.reflogLines lb)).latest_of
        (branch_reflog.init rb (repo.reflogLines rb)).commit_ids with
    | none => simp [classify, hex, h1, h2, hr2, hl2]
    | some w => simp [classify, hex, h1, h2, hr2, hl2]

/-- Witness for C2 at `repoConflicted`: the current tips `D` and `E`
appear in neither opposite reflog, but the shared historical commit `A`
makes the second lookup match, so the pair is `CONFLICTED`. -/
theorem second_lookup_conflict_or_unrelated_witness :
    (classify repoConflicted "origin/feature" "feature").status =
      some BranchSyncStatus.CONFLICTED :=
  ((second_lookup_conflict_or_unrelated repoConflicted "origin/feature"
      "feature" (by decide) (by decide) (by decide)).1).mpr (by decide)

/- ### Tag planner lemmas -/

theorem inNamespace_append (s : String) :
    inNamespace (nsRoot ++ s) = true := by
  rw [inNamespace, List.isPrefixOf_iff_prefix, String.data_append]
  exact List.prefix_append _ _

theorem inNamespace_append₂ (x y : String) :
    inNamespace ((nsRoot ++ x) ++ y) = true := by
  rw [String.append_assoc]
  exact inNamespace_append _

theorem resolveTag_createTag (store : TagStore) (n s : String) :
    resolveTag (createTag store n s) n = some s := by
  rw [resolveTag, createTag, List.find?_append]
  have h : (store.filter (fun p => !(p.1 == n))).find?
      (fun p => p.1 == n) = none := by
    rw [List.find?_eq_none]
    intro p hp
    have := List.of_mem_filter hp
    simpa using this
  rw [h]
  simp [List.find?]

theorem filter_nonNs_createTag (store : TagStore) (n s : String)
    (hn : inNamespace n = true) :
    (createTag store n s).filter (fun p => !(inNamespace p.1)) =
      store.filter (fun p => !(inNamespace p.1)) := by
  rw [createTag, List.filter_append, List.filter_filter]
  have h2 : List.filter (fun p : String × String => !(inNamespace p.1))
      [(n, s)] = [] := by
    simp [hn]
  rw [h2, List.append_nil]
  apply List.filter_congr
  intro p _
  by_cases hpn : p.1 = n
  · simp [hpn, hn]
  · simp [hpn]

theorem mem_setAdd (s : List String) (x y : String) :
    y ∈ setAdd s x ↔ y ∈ s ∨ y = x := by
  rw [setAdd]
  split
  · rename_i h
    have h' : x ∈ s := by simpa using h
    constructor
    · exact Or.inl
    · rintro (hy | rfl)
      · exact hy
      · exact h'
  · simp

theorem nodup_setAdd (s : List String) (x : String) (h : s.Nodup) :
    (setAdd s x).Nodup := by
  rw [setAdd]
  split
  · exact h
  · rename_i hc
    have hc' : ¬ x ∈ s := by simpa using hc
    simp [List.nodup_append, h, hc']

theorem mem_foldl_setAdd {α : Type} (f : α → String) (l : List α)
    (s : List String) (x : String) :
    x ∈ l.foldl (fun s a => setAdd s (f a)) s ↔
      x ∈ s ∨ ∃ a ∈ l, f a = x := by
  induction l generalizing s with
  | nil => simp
  | cons hd tl ih =>
    rw [List.foldl_cons, ih, mem_setAdd]
    constructor
    · rintro ((hx | rfl) | ⟨a, ha, rfl⟩)
      · exact Or.inl hx
      · exact Or.inr ⟨hd, by simp⟩
      · exact Or.inr ⟨a, by simp [ha]⟩
    · rintro (hx | ⟨a, ha, rfl⟩)
      · exact Or.inl (Or.inl hx)
      · rcases List.mem_cons.mp ha with rfl | ha
        · exact Or.inl (Or.inr rfl)
        · exact Or.inr ⟨a, ha, rfl⟩

theorem nodup_foldl_setAdd {α : Type} (f : α → String) (l : List α)
    (s : List String) (h : s.Nodup) :
    (l.foldl (fun s a => setAdd s (f a)) s).Nodup := by
  induction l generalizing s with
  | nil => exact h
  | cons hd tl ih => exact ih _ (nodup_setAdd _ _ h)

theorem tagBranchEntries_bases (repo : PlanRepo) (main branch : String)
    (i : Nat) (ls : List String) (acc : LoopAcc) :
    (tagBranchEntries repo main branch i ls acc).bases = acc.bases := by
  induction ls generalizing i acc with
  | nil => rfl
  | cons hd tl ih =>
    rw [tagBranchEntries]
    exact ih _ _

theorem tagBranchEntries_last (repo : PlanRepo) (main branch : String)
    (i : Nat) (ls : List String) (acc : LoopAcc) :
    (tagBranchEntries repo main branch i ls acc).last_bases =
      ls.foldl (fun s l => setAdd s
        (repo.mergeBase (repo.sha l) (repo.sha main))) acc.last_bases := by
  induction ls generalizing i acc with
  | nil => rfl
  | cons hd tl ih =>
    rw [tagBranchEntries, List.foldl_cons]
    simp only [resolveTag_createTag, Option.getD_some]
    exact ih _ _

theorem tagBranchEntries_store_filter (repo : PlanRepo)
    (main branch : String) (i : Nat) (ls : List String) (acc : LoopAcc) :
    (tagBranchEntries repo main branch i ls acc).store.filter
        (fun p => !(inNamespace p.1)) =
      acc.store.filter (fun p => !(inNamespace p.1)) := by
  induction ls generalizing i acc with
  | nil => rfl
  | cons hd tl ih =>
    rw [tagBranchEntries]
    rw [ih]
    exact filter_nonNs_createTag _ _ _ (inNamespace_append _)

theorem tagBranchesLoop_bases (repo : PlanRepo) (main : String)
    (depth : Nat) (bs : List String) (acc : LoopAcc) :
    (tagBranchesLoop repo main depth bs acc).bases =
      bs.foldl (fun s b => setAdd s
        (repo.mergeBase (repo.sha b) (repo.sha main))) acc.bases := by
  induction bs generalizing acc with
  | nil => rfl
  | cons hd tl ih =>
    rw [tagBranchesLoop, List.foldl_cons, ih, tagBranchEntries_bases]

theorem tagBranchesLoop_last_nodup (repo : PlanRepo) (main : String)
    (depth : Nat) (bs : List String) (acc : LoopAcc)
    (h : acc.last_bases.Nodup) :
    (tagBranchesLoop repo main depth bs acc).last_bases.Nodup := by
  induction bs generalizing acc with
  | nil => exact h
  | cons hd tl ih =>
    rw [tagBranchesLoop]
    apply ih
    rw [tagBranchEntries_last]
    exact nodup_foldl_setAdd _ _ _ h

theorem tagBranchesLoop_store_filter (repo : PlanRepo) (main : String)
    (depth : Nat) (bs : List String) (acc : LoopAcc) :
    (tagBranchesLoop repo main depth bs acc).store.filter
        (fun p => !(inNamespace p.1)) =
      acc.store.filter (fun p => !(inNamespace p.1)) := by
  induction bs generalizing acc with
  | nil => rfl
  | cons hd tl ih =>
    rw [tagBranchesLoop, ih, tagBranchEntries_store_filter]

theorem createEnumTags_names (pre : String) (store : TagStore) (i : Nat)
    (l : List String) :
    (createEnumTags pre store i l).2 =
      (List.range l.length).map (fun j => pre ++ toString (i + j)) := by
  induction l generalizing store i with
  | nil => rfl
  | cons hd tl ih =>
    rw [createEnumTags]
    dsimp only
    rw [ih, List.length_cons, List.range_succ_eq_map]
    simp only [List.map_cons, List.map_map]
    congr 1
    apply List.map_congr_left
    intro j _
    simp only [Function.comp_apply]
    have hj : i + 1 + j = i + Nat.succ j := by omega
    rw [hj]

theorem createEnumTags_store_filter (x : String) (store : TagStore)
    (i : Nat) (l : List String) :
    ((createEnumTags (nsRoot ++ x) store i l).1).filter
        (fun p => !(inNamespace p.1)) =
      store.filter (fun p => !(inNamespace p.1)) := by
  induction l generalizing store i with
  | nil => rfl
  | cons hd tl ih =>
    rw [createEnumTags]
    dsimp only
    rw [ih]
    exact filter_nonNs_createTag _ _ _ (inNamespace_append₂ _ _)

theorem remove_old_tags_fst (store : TagStore) :
    (remove_old_tags store).1 =
      store.filter (fun p => !(inNamespace p.1)) := by
  rw [remove_old_tags]
  split
  · rename_i h
    have h0 : nsTags store = [] := List.isEmpty_iff.mp h
    have h1 : store.filter (fun p => inNamespace p.1) = [] := by
      rw [nsTags] at h0
      exact List.map_eq_nil_iff.mp h0
    have h2 : ∀ p ∈ store, inNamespace p.1 = false := by
      intro p hp
      have := List.filter_eq_nil_iff.mp h1 p hp
      simpa using this
    symm
    rw [List.filter_eq_self]
    intro p hp
    simp [h2 p hp]
  · apply List.filter_congr
    intro p hp
    have hcp : ((nsTags store).contains p.1) = inNamespace p.1 := by
      by_cases hx : inNamespace p.1 = true
      · have hmem : p.1 ∈ nsTags store := by
          rw [nsTags]
          exact List.mem_map_of_mem _ (List.mem_filter.mpr ⟨hp, hx⟩)
        have h1 : (nsTags store).contains p.1 = true := by
          simpa using hmem
        rw [h1, hx]
      · have hx' : inNamespace p.1 = false := by simpa using hx
        have hnm : ¬ p.1 ∈ nsTags store := by
          rw [nsTags]
          intro hmem
          obtain ⟨q, hq, hqe⟩ := List.mem_map.mp hmem
          have hns := List.of_mem_filter hq
          rw [hqe] at hns
          rw [hns] at hx'
          cases hx'
        have h1 : (nsTags store).contains p.1 = false := by
          simpa using hnm
        rw [h1, hx']
    rw [hcp]

/-- **C6**: the tag planner's `bases` collection enumerates, without
duplicates, exactly the distinct merge-bases of the listed branches with
main (so branches sharing a merge-base contribute one element, not two);
the `__last_base__` values are exactly the elements of `last_bases` not
also in `bases`; and the created marker names comprise exactly one
`__base__` marker per element of `bases` and one `__last_base__` marker
per element of the difference. -/
theorem tag_planner_dedup (repo : PlanRepo) (main : String) (depth : Nat)
    (store : TagStore) :
    (planAcc repo main depth store).bases.Nodup ∧
    (∀ x, x ∈ (planAcc repo main depth store).bases ↔
      ∃ b ∈ repo.branches,
        repo.mergeBase (repo.sha b) (repo.sha main) = x) ∧
    ((planAcc repo main depth store).last_bases.filter
      (fun x => !((planAcc repo main depth store).bases.contains
        x))).Nodup ∧
    (∀ x, x ∈ (planAcc repo main depth store).last_bases.filter
        (fun x => !((planAcc repo main depth store).bases.contains x)) ↔
      (x ∈ (planAcc repo main depth store).last_bases ∧
        ¬ x ∈ (planAcc repo main depth store).bases)) ∧
    (tag_last_branches repo main depth store).base_tags =
      ((List.range (planAcc repo main depth store).bases.length).map
        (fun i => (nsRoot ++ "__base__/") ++ toString i)) ++
      ((List.range ((planAcc repo main depth store).last_bases.filter
          (fun x => !((planAcc repo main depth
            store).bases.contains x))).length).map
        (fun i => (nsRoot ++ "__last_base__/") ++ toString i)) := by
  refine ⟨?_, ?_, ?_, ?_, ?_⟩
  · rw [planAcc, tagBranchesLoop_bases]
    exact nodup_foldl_setAdd _ _ _ (List.nodup_nil)
  · intro x
    rw [planAcc, tagBranchesLoop_bases, mem_foldl_setAdd]
    simp
  · apply List.Nodup.filter
    rw [planAcc]
    exact tagBranchesLoop_last_nodup _ _ _ _ _ (List.nodup_nil)
  · intro x
    rw [List.mem_filter]
    simp
  · rw [tag_last_branches]
    dsimp only
    rw [createEnumTags_names, createEnumTags_names]
    simp

/-- Witness for C6 at `repoPlan`: branches `b1` and `b2` share the
merge-base `M`, and the planner records it once. -/
theorem tag_planner_dedup_witness :
    (planAcc repoPlan "main" 1 []).bases.Nodup :=
  (tag_planner_dedup repoPlan "main" 1 []).1

/-- **C7**: running the tag planner twice in a row against the same
repository state yields the same result (tag store and returned triple)
as running it once: the cleanup deletes exactly the namespace the first
run created, and recreation is a pure function of the repository
state. -/
theorem tag_planner_idempotent (repo : PlanRepo) (main : String)
    (depth : Nat) (store : TagStore) :
    tag_last_branches repo main depth
        ((tag_last_branches repo main depth store).store) =
      tag_last_branches repo main depth store := by
  have hfilter : ((tag_last_branches repo main depth store).store).filter
      (fun p => !(inNamespace p.1)) =
      store.filter (fun p => !(inNamespace p.1)) := by
    rw [tag_last_branches]
    dsimp only
    rw [createEnumTags_store_filter, createEnumTags_store_filter,
      planAcc, tagBranchesLoop_store_filter]
    dsimp only
    rw [remove_old_tags_fst, List.filter_filter]
    apply List.filter_congr
    intro p _
    simp
  have key : (remove_old_tags
      ((tag_last_branches repo main depth store).store)).1 =
      (remove_old_tags store).1 := by
    rw [remove_old_tags_fst, remove_old_tags_fst, hfilter]
  have key2 : ∀ s1 s2 : TagStore,
      (remove_old_tags s1).1 = (remove_old_tags s2).1 →
      tag_last_branches repo main depth s1 =
        tag_last_branches repo main depth s2 := by
    intro s1 s2 h
    rw [tag_last_branches, tag_last_branches, planAcc, planAcc, h]
  exact key2 _ _ key

/-- **C10**: when the namespace query returns no tags, `remove_old_tags`
returns having issued only the query — no `git tag -d`; the delete
command is issued only with the (non-empty) list of existing tags as
arguments, so an empty-argument delete is unreachable. -/
theorem remove_old_tags_no_empty_delete (store : TagStore) :
    (nsTags store = [] → (remove_old_tags store).2 = [forEachRefCmd]) ∧
    (nsTags store ≠ [] → (remove_old_tags store).2 =
      [forEachRefCmd, ["git", "tag", "-d"] ++ nsTags store]) ∧
    (∀ c ∈ (remove_old_tags store).2,
      c.take 3 = ["git", "tag", "-d"] → 4 ≤ c.length) := by
  have hTake : ¬ (forEachRefCmd.take 3 = ["git", "tag", "-d"]) := by
    decide
  cases h : (nsTags store).isEmpty with
  | true =>
    have h0 : nsTags store = [] := List.isEmpty_iff.mp h
    have hcmds : (remove_old_tags store).2 = [forEachRefCmd] := by
      rw [remove_old_tags]
      simp [h]
    refine ⟨fun _ => hcmds, fun hne => absurd h0 hne, ?_⟩
    intro c hc htake
    rw [hcmds] at hc
    simp only [List.mem_singleton] at hc
    subst hc
    exact absurd htake hTake
  | false =>
    have h0 : nsTags store ≠ [] := by
      intro he
      rw [he] at h
      simp at h
    have hcmds : (remove_old_tags store).2 =
        [forEachRefCmd, ["git", "tag", "-d"] ++ nsTags store] := by
      rw [remove_old_tags]
      simp [h]
    refine ⟨fun he => absurd he h0, fun _ => hcmds, ?_⟩
    intro c hc htake
    rw [hcmds] at hc
    simp only [List.mem_cons, List.mem_singleton] at hc
    rcases hc with rfl | rfl | hc
    · exact absurd htake hTake
    · rw [List.length_append]
      have : 0 < (nsTags store).length := List.length_pos.mpr h0
      simp only [List.length_cons, List.length_nil]
      omega
    · cases hc

/-- Witness for C10: a store with no namespace tags issues only the
query, and a store with one namespace tag issues the delete with that
tag as argument. -/
theorem remove_old_tags_no_empty_delete_witness :
    (remove_old_tags [("v1", "B")]).2 = [forEachRefCmd] ∧
    (remove_old_tags [("rebase/last/x/1", "A")]).2 =
      [forEachRefCmd,
       ["git", "tag", "-d"] ++ nsTags [("rebase/last/x/1", "A")]] :=
  ⟨(remove_old_tags_no_empty_delete [("v1", "B")]).1 (by decide),
   (remove_old_tags_no_empty_delete [("rebase/last/x/1", "A")]).2.1
     (by decide)⟩

/-- Witness instantiation for C7 at the concrete planner repository
(hypothesis-free; recorded for concreteness). -/
theorem tag_planner_idempotent_witness :
    tag_last_branches repoPlan "main" 1
        ((tag_last_branches repoPlan "main" 1 []).store) =
      tag_last_branches repoPlan "main" 1 [] :=
  tag_planner_idempotent repoPlan "main" 1 []

/- ### Orchestrator lemmas -/

theorem GitM_bind_apply {α β : Type} (m : GitM α) (f : α → GitM β)
    (s : GitS) :
    (m >>= f) s = (match m s with
      | (Except.ok a, s') => f a s'
      | (Except.error e, s') => (Except.error e, s')) := rfl

theorem stepsTo_pure {α : Type} (v : α) : StepsTo (pure v) v := by
  intro s
  refine ⟨[], ?_, by simp⟩
  show (Except.ok v, s) = (Except.ok v, ⟨s.current, s.trace ++ []⟩)
  simp

theorem stepsTo_printLine (l : String) : StepsTo (printLine l) () := by
  intro s
  exact ⟨[Eff.print l], rfl, by simp [isPrint]⟩

theorem stepsTo_subprocess_dry (fails : List String → Bool)
    (args : List String) : StepsTo (subprocess_run fails true args) () := by
  intro s
  exact ⟨[Eff.print ("#   " ++ format_command args)], rfl,
    by simp [isPrint]⟩

theorem stepsTo_bind {α β : Type} {m : GitM α} {f : α → GitM β}
    {v : α} {w : β} (hm : StepsTo m v) (hf : StepsTo (f v) w) :
    StepsTo (m >>= f) w := by
  intro s
  obtain ⟨tr1, h1, hp1⟩ := hm s
  obtain ⟨tr2, h2, hp2⟩ := hf ⟨s.current, s.trace ++ tr1⟩
  refine ⟨tr1 ++ tr2, ?_, ?_⟩
  · rw [GitM_bind_apply, h1]
    dsimp only
    rw [h2]
    simp [List.append_assoc]
  · intro e he
    rcases List.mem_append.mp he with h | h
    · exact hp1 e h
    · exact hp2 e h

theorem stepsTo_ite (c : Prop) [Decidable c] {a b : GitM Unit}
    (ha : StepsTo a ()) (hb : StepsTo b ()) :
    StepsTo (if c then a else b) () := by
  by_cases h : c
  · rwa [if_pos h]
  · rwa [if_neg h]

theorem stepsTo_congr_val {α : Type} {m : GitM α} {v w : α}
    (hm : StepsTo m v) (hvw : v = w) : StepsTo m w := hvw ▸ hm

theorem stepsTo_iteVal {α : Type} (c : Prop) [Decidable c]
    {a b : GitM α} {v : α} (ha : StepsTo a v) (hb : StepsTo b v) :
    StepsTo (if c then a else b) v := by
  by_cases h : c
  · rwa [if_pos h]
  · rwa [if_neg h]

/-- A conditionally printed line followed by a continuation, as the
`if verbose: print(...)` statements desugar inside a do block. -/
theorem stepsTo_optPrint {α : Type} (c : Prop) [Decidable c] (l : String)
    {k : GitM α} {w : α} (hk : StepsTo k w) :
    StepsTo (if c then (printLine l >>= fun _ => k)
             else ((pure PUnit.unit : GitM PUnit) >>= fun _ => k)) w :=
  stepsTo_iteVal c (stepsTo_bind (stepsTo_printLine l) hk)
    (stepsTo_bind (stepsTo_pure _) hk)

theorem sync_local_step_dry (fails : List String → Bool)
    (st : BranchSyncState) : StepsTo (sync_local_step fails true st) () := by
  cases hst : st.status with
  | none =>
    simp only [sync_local_step, hst]
    exact stepsTo_printLine _
  | some s =>
    cases s <;> simp only [sync_local_step, hst]
    · exact stepsTo_bind (stepsTo_printLine _) (stepsTo_subprocess_dry _ _)
    · exact stepsTo_printLine _
    · exact stepsTo_printLine _
    · exact stepsTo_bind (stepsTo_printLine _)
        (stepsTo_bind (stepsTo_subprocess_dry _ _)
          (stepsTo_subprocess_dry _ _))
    · exact stepsTo_printLine _
    · exact stepsTo_printLine _

theorem sync_local_loop_dry (fails : List String → Bool)
    (sts : List BranchSyncState) :
    ∀ last, StepsTo (sync_local_loop fails true sts last) () := by
  induction sts with
  | nil => intro last; exact stepsTo_pure ()
  | cons st rest ih =>
    intro last
    simp only [sync_local_loop]
    apply stepsTo_ite
    · exact stepsTo_bind (stepsTo_printLine _)
        (stepsTo_bind (sync_local_step_dry _ _) (ih _))
    · exact stepsTo_bind (stepsTo_pure _)
        (stepsTo_bind (sync_local_step_dry _ _) (ih _))

/-- A dry-run `retain_current_branch` around a dry body: the body leaves
the checkout untouched, so the restore condition is false and the whole
scope is print-only. -/
theorem retain_dry (fails : List String → Bool) {body : GitM Unit}
    (hb : StepsTo body ()) :
    StepsTo (retain_current_branch fails true body) () := by
  intro s
  obtain ⟨tr, h1, hp⟩ := hb s
  refine ⟨tr, ?_, hp⟩
  show (body >>= fun _ => get_current_branch >>= fun now =>
    if s.current ≠ now then
      subprocess_run fails true ["git", "checkout", s.current]
    else pure ()) s = _
  rw [GitM_bind_apply, h1]
  dsimp only [get_current_branch, GitM_bind_apply]
  rw [if_neg (by simp)]
  rfl

theorem sync_local_dry_steps (repo : Repo) (upstream : String)
    (fails : List String → Bool) :
    StepsTo (sync_local repo upstream fails true) () := by
  rw [sync_local]
  exact retain_dry fails
    (stepsTo_bind (stepsTo_subprocess_dry _ _) (sync_local_loop_dry _ _ _))

/-- The `sync_remote` loop executes no command at all: it only prints
and accumulates, returning the batch extended with the local branch
names of the stream's `LOCAL_MODIFIED` entries. -/
theorem sync_remote_loop_steps (verbose : Bool)
    (sts : List BranchSyncState) :
    ∀ last acc, StepsTo (sync_remote_loop verbose sts last acc)
      (acc ++ pushesOfList sts) := by
  induction sts with
  | nil =>
    intro last acc
    exact stepsTo_congr_val (stepsTo_pure acc) (by simp [pushesOfList])
  | cons st rest ih =>
    intro last acc
    rcases hst : st.status with _ | s
    · simp only [sync_remote_loop, hst]
      have tail := stepsTo_congr_val (ih none acc)
        (show acc ++ pushesOfList rest = acc ++ pushesOfList (st :: rest)
          by simp [pushesOfList, hst, List.filter_cons])
      exact stepsTo_iteVal _
        (stepsTo_optPrint _ _ (stepsTo_optPrint _ _ tail))
        (stepsTo_bind (stepsTo_pure _) (stepsTo_optPrint _ _ tail))
    · cases s <;>
        (simp only [sync_remote_loop, hst]
         first
          | (refine stepsTo_iteVal _
              (stepsTo_optPrint _ _ (stepsTo_optPrint _ _
                (stepsTo_congr_val (ih _ acc) ?_)))
              (stepsTo_bind (stepsTo_pure _) (stepsTo_optPrint _ _
                (stepsTo_congr_val (ih _ acc) ?_))) <;>
             simp [pushesOfList, hst, List.filter_cons])
          | (refine stepsTo_iteVal _
              (stepsTo_optPrint _ _ (stepsTo_optPrint _ _
                (stepsTo_congr_val (ih _ (acc ++ [st.local_branch])) ?_)))
              (stepsTo_bind (stepsTo_pure _) (stepsTo_optPrint _ _
                (stepsTo_congr_val (ih _ (acc ++ [st.local_branch]))
                  ?_))) <;>
             simp [pushesOfList, hst, List.filter_cons,
               List.append_assoc]))

theorem sync_remote_dry_steps (repo : Repo) (upstream : String)
    (fails : List String → Bool) (verbose : Bool) :
    StepsTo (sync_remote repo upstream fails true verbose) () := by
  rw [sync_remote]
  apply stepsTo_bind (stepsTo_subprocess_dry _ _)
  apply stepsTo_bind (sync_remote_loop_steps _ _ _ _)
  apply stepsTo_iteVal
  · exact stepsTo_subprocess_dry _ _
  · exact stepsTo_printLine _

theorem subprocess_run_wet_ok (fails : List String → Bool)
    (args : List String) (s : GitS) (h : fails args = false) :
    subprocess_run fails false args s =
      (Except.ok (),
       applyCmd args { s with trace := s.trace ++ [Eff.run args] }) := by
  simp [subprocess_run, h]

/-- A wet (non-dry) `retain_current_branch` that completes normally has
restored the captured branch: either the body never moved the checkout,
or the final `git checkout` put it back. -/
theorem retain_wet_ok (fails : List String → Bool) (body : GitM Unit)
    (s0 : GitS) (r : Unit) (s1 : GitS)
    (h : retain_current_branch fails false body s0 = (Except.ok r, s1)) :
    s1.current = s0.current := by
  rw [retain_current_branch] at h
  rw [GitM_bind_apply] at h
  dsimp only [get_current_branch] at h
  rw [GitM_bind_apply] at h
  rcases hb : body s0 with ⟨res, s'⟩
  rw [hb] at h
  cases res with
  | error e' => simp at h
  | ok a =>
    dsimp only at h
    rw [GitM_bind_apply] at h
    dsimp only [get_current_branch] at h
    by_cases hc : s0.current ≠ s'.current
    · rw [if_pos hc] at h
      by_cases hf : fails ["git", "checkout", s0.current] = true
      · rw [subprocess_run] at h
        simp [hf] at h
      · rw [subprocess_run_wet_ok _ _ _ (by simpa using hf)] at h
        have h2 := congrArg Prod.snd h
        dsimp only at h2
        rw [← h2]
        rfl
    · rw [if_neg hc] at h
      have h2 := congrArg Prod.snd h
      dsimp only at h2
      rw [← h2]
      simp at hc
      exact hc.symm

theorem perm_insertS {α : Type} (le : α → α → Bool) (x : α)
    (l : List α) : List.Perm (insertS le x l) (x :: l) := by
  induction l with
  | nil => exact List.Perm.refl _
  | cons y ys ih =>
    rw [insertS]
    split
    · exact (ih.cons y).trans (List.Perm.swap x y ys)
    · exact List.Perm.refl _

theorem perm_insertionSort {α : Type} (le : α → α → Bool)
    (l : List α) : List.Perm (insertionSort le l) l := by
  induction l with
  | nil => exact List.Perm.refl _
  | cons x xs ih =>
    rw [insertionSort]
    exact (perm_insertS le x _).trans (ih.cons x)

/-- **C3 counterexample**: a concrete failing `sync_local` run.  The
checkout starts at `main`; reconciling `feature` (remote-modified)
checks out `feature`, the hard reset fails, the failure propagates —
and the exit state still has `feature` checked out, not the captured
`main`: the restoration does not happen on the failure path. -/
theorem sync_local_failure_skips_restore :
    (sync_local repoC3 "origin" failsC3 false ⟨"main", []⟩).1 =
      Except.error () ∧
    ((sync_local repoC3 "origin" failsC3 false ⟨"main", []⟩).2).current =
      "feature" ∧
    ¬ ((sync_local repoC3 "origin" failsC3 false
        ⟨"main", []⟩).2).current = "main" :=
  ⟨rfl, rfl, by decide⟩

/-- **C3 (amended)**: the branch checked out before a `sync_local` run
is restored on normal completion (in wet mode by the final checkout, in
dry mode because nothing moved); on a propagated failure the
generator-based context manager skips the restoration, so only
normally-completing runs are covered. -/
theorem sync_local_restores_checkout_on_success (repo : Repo)
    (upstream : String) (fails : List String → Bool) (dry_run : Bool)
    (s0 s1 : GitS) (r : Unit)
    (h : sync_local repo upstream fails dry_run s0 = (Except.ok r, s1)) :
    s1.current = s0.current := by
  cases dry_run with
  | false => exact retain_wet_ok fails _ s0 r s1 h
  | true =>
    obtain ⟨tr, he, _⟩ := sync_local_dry_steps repo upstream fails s0
    rw [h] at he
    have h2 := congrArg Prod.snd he
    dsimp only at h2
    rw [h2]

/-- Witness for C3's amended theorem at a concrete successful wet run:
the exit checkout equals the entry checkout. -/
theorem sync_local_restores_checkout_on_success_witness :
    (⟨"main", [Eff.run ["git", "fetch", "origin", "--prune"],
      Eff.print "",
      Eff.print "BranchSyncStatus.UPTODATE feature origin/feature"]⟩ :
        GitS).current = (⟨"main", []⟩ : GitS).current :=
  sync_local_restores_checkout_on_success repoUpToDate "origin"
    (fun _ => false) false ⟨"main", []⟩ _ () (by rfl)

theorem stepsToWith_of_stepsTo {α : Type} {m : GitM α} {v : α}
    (h : StepsTo m v) : StepsToWith m v [] := by
  intro s
  obtain ⟨tr, h1, h2⟩ := h s
  exact ⟨tr, h1, h2, by simp⟩

theorem stepsToWith_printLine (l : String) :
    StepsToWith (printLine l) () [Eff.print l] := by
  intro s
  exact ⟨[Eff.print l], rfl, by simp [isPrint], by simp⟩

theorem stepsToWith_bind {α β : Type} {m : GitM α} {f : α → GitM β}
    {v : α} {w : β} {r1 r2 : List Eff}
    (hm : StepsToWith m v r1) (hf : StepsToWith (f v) w r2) :
    StepsToWith (m >>= f) w (r1 ++ r2) := by
  intro s
  obtain ⟨tr1, h1, hp1, hr1⟩ := hm s
  obtain ⟨tr2, h2, hp2, hr2⟩ := hf ⟨s.current, s.trace ++ tr1⟩
  refine ⟨tr1 ++ tr2, ?_, ?_, ?_⟩
  · rw [GitM_bind_apply, h1]
    dsimp only
    rw [h2]
    simp [List.append_assoc]
  · intro e he
    rcases List.mem_append.mp he with h | h
    · exact hp1 e h
    · exact hp2 e h
  · intro e he
    rcases List.mem_append.mp he with h | h
    · exact List.mem_append.mpr (Or.inl (hr1 e h))
    · exact List.mem_append.mpr (Or.inr (hr2 e h))

theorem stepsToWith_iteVal {α : Type} (c : Prop) [Decidable c]
    {a b : GitM α} {v : α} {r : List Eff}
    (ha : StepsToWith a v r) (hb : StepsToWith b v r) :
    StepsToWith (if c then a else b) v r := by
  by_cases h : c
  · rwa [if_pos h]
  · rwa [if_neg h]

theorem stepsToWith_optPrint {α : Type} (c : Prop) [Decidable c]
    (l : String) {k : GitM α} {w : α} {r : List Eff}
    (hk : StepsToWith k w r) :
    StepsToWith (if c then (printLine l >>= fun _ => k)
             else ((pure PUnit.unit : GitM PUnit) >>= fun _ => k)) w r :=
  stepsToWith_iteVal c
    (stepsToWith_bind (stepsToWith_of_stepsTo (stepsTo_printLine l)) hk)
    (stepsToWith_bind (stepsToWith_of_stepsTo (stepsTo_pure _)) hk)

/-- The `sync_remote` loop, refined: besides executing nothing and
returning the accumulated batch, its trace contains the report line of
every `CONFLICTED` or `REMOTE_MODIFIED` entry of the stream — their
report condition holds even without `verbose`. -/
theorem sync_remote_loop_reports (verbose : Bool)
    (sts : List BranchSyncState) :
    ∀ last acc, StepsToWith (sync_remote_loop verbose sts last acc)
      (acc ++ pushesOfList sts) (reportsOf sts) := by
  induction sts with
  | nil =>
    intro last acc
    exact stepsToWith_of_stepsTo
      (stepsTo_congr_val (stepsTo_pure acc) (by simp [pushesOfList]))
  | cons st rest ih =>
    intro last acc
    rcases hst : st.status with _ | s
    · simp only [sync_remote_loop, hst]
      rw [show acc ++ pushesOfList (st :: rest) =
            acc ++ pushesOfList rest from by
          simp [pushesOfList, hst, List.filter_cons],
        show reportsOf (st :: rest) = reportsOf rest from by
          simp [reportsOf, hst, List.filter_cons]]
      exact stepsToWith_iteVal _
        (stepsToWith_optPrint _ _ (stepsToWith_optPrint _ _ (ih _ acc)))
        (stepsToWith_bind (stepsToWith_of_stepsTo (stepsTo_pure _))
          (stepsToWith_optPrint _ _ (ih _ acc)))
    · cases s <;> simp only [sync_remote_loop, hst]
      case LOCAL_MODIFIED =>
        rw [show acc ++ pushesOfList (st :: rest) =
              (acc ++ [st.local_branch]) ++ pushesOfList rest from by
            simp [pushesOfList, hst, List.filter_cons,
              List.append_assoc],
          show reportsOf (st :: rest) = reportsOf rest from by
            simp [reportsOf, hst, List.filter_cons]]
        exact stepsToWith_iteVal _
          (stepsToWith_optPrint _ _ (stepsToWith_optPrint _ _ (ih _ _)))
          (stepsToWith_bind (stepsToWith_of_stepsTo (stepsTo_pure _))
            (stepsToWith_optPrint _ _ (ih _ _)))
      case CONFLICTED =>
        rw [show acc ++ pushesOfList (st :: rest) =
              acc ++ pushesOfList rest from by
            simp [pushesOfList, hst, List.filter_cons],
          show reportsOf (st :: rest) = Eff.print
              (optStatusStr (some BranchSyncStatus.CONFLICTED) ++ " " ++
                st.local_branch ++ " " ++ st.remote_branch) ::
              reportsOf rest from by
            simp [reportsOf, hst, List.filter_cons]]
        have hcond : (verbose ||
            (some BranchSyncStatus.CONFLICTED ==
                some BranchSyncStatus.CONFLICTED ||
              some BranchSyncStatus.CONFLICTED ==
                some BranchSyncStatus.REMOTE_MODIFIED)) = true := by simp
        apply stepsToWith_iteVal
        · apply stepsToWith_iteVal
          · apply stepsToWith_bind
              (stepsToWith_of_stepsTo (stepsTo_printLine _))
            rw [if_pos hcond]
            exact stepsToWith_bind (stepsToWith_printLine _) (ih _ acc)
          · apply stepsToWith_bind
              (stepsToWith_of_stepsTo (stepsTo_pure _))
            rw [if_pos hcond]
            exact stepsToWith_bind (stepsToWith_printLine _) (ih _ acc)
        · apply stepsToWith_bind
            (stepsToWith_of_stepsTo (stepsTo_pure _))
          rw [if_pos hcond]
          exact stepsToWith_bind (stepsToWith_printLine _) (ih _ acc)
      case REMOTE_MODIFIED =>
        rw [show acc ++ pushesOfList (st :: rest) =
              acc ++ pushesOfList rest from by
            simp [pushesOfList, hst, List.filter_cons],
          show reportsOf (st :: rest) = Eff.print
              (optStatusStr (some BranchSyncStatus.REMOTE_MODIFIED) ++
                " " ++ st.local_branch ++ " " ++ st.remote_branch) ::
              reportsOf rest from by
            simp [reportsOf, hst, List.filter_cons]]
        have hcond : (verbose ||
            (some BranchSyncStatus.REMOTE_MODIFIED ==
                some BranchSyncStatus.CONFLICTED ||
              some BranchSyncStatus.REMOTE_MODIFIED ==
                some BranchSyncStatus.REMOTE_MODIFIED)) = true := by simp
        apply stepsToWith_iteVal
        · apply stepsToWith_iteVal
          · apply stepsToWith_bind
              (stepsToWith_of_stepsTo (stepsTo_printLine _))
            rw [if_pos hcond]
            exact stepsToWith_bind (stepsToWith_printLine _) (ih _ acc)
          · apply stepsToWith_bind
              (stepsToWith_of_stepsTo (stepsTo_pure _))
            rw [if_pos hcond]
            exact stepsToWith_bind (stepsToWith_printLine _) (ih _ acc)
        · apply stepsToWith_bind
            (stepsToWith_of_stepsTo (stepsTo_pure _))
          rw [if_pos hcond]
          exact stepsToWith_bind (stepsToWith_printLine _) (ih _ acc)
      all_goals
        rw [show acc ++ pushesOfList (st :: rest) =
              acc ++ pushesOfList rest from by
            simp [pushesOfList, hst, List.filter_cons],
          show reportsOf (st :: rest) = reportsOf rest from by
            simp [reportsOf, hst, List.filter_cons]]
      all_goals
        exact stepsToWith_iteVal _
          (stepsToWith_optPrint _ _ (stepsToWith_optPrint _ _ (ih _ acc)))
          (stepsToWith_bind (stepsToWith_of_stepsTo (stepsTo_pure _))
            (stepsToWith_optPrint _ _ (ih _ acc)))

/-- **C5**: in a wet `sync_remote` run without command failures, the
only commands executed are the fetch and — exactly when the batch is
non-empty — one single batched force-push of precisely the accumulated
branch list; the pushed names are exactly the local branch names of the
`LOCAL_MODIFIED` classification entries; when nothing qualifies no push
runs and the no-op message is printed; and every `CONFLICTED` or
`REMOTE_MODIFIED` entry is reported — its status line is printed (even
without `verbose`) — but never pushed. -/
theorem sync_remote_batched_pushes (repo : Repo) (upstream : String)
    (fails : List String → Bool) (verbose : Bool) (s0 : GitS)
    (hf : ∀ args, fails args = false) :
    ∃ tr, sync_remote repo upstream fails false verbose s0 =
        (Except.ok (), ⟨s0.current, s0.trace ++ tr⟩) ∧
      tr.filter (fun e => !(isPrint e)) =
        Eff.run ["git", "fetch", upstream, "--prune"] ::
          (if (force_pushes_of repo upstream).isEmpty then []
           else [Eff.run (["git", "push", upstream, "-f"] ++
             force_pushes_of repo upstream)]) ∧
      ((force_pushes_of repo upstream).isEmpty = true →
        Eff.print "Nothing to do" ∈ tr) ∧
      (∀ b, b ∈ force_pushes_of repo upstream ↔
        ∃ st ∈ branch_sync_state repo upstream,
          st.status = some BranchSyncStatus.LOCAL_MODIFIED ∧
          st.local_branch = b) ∧
      (∀ st ∈ branch_sync_state repo upstream,
        (st.status = some BranchSyncStatus.CONFLICTED ∨
          st.status = some BranchSyncStatus.REMOTE_MODIFIED) →
        Eff.print (optStatusStr st.status ++ " " ++ st.local_branch ++
          " " ++ st.remote_branch) ∈ tr) := by
  have hperm : List.Perm (sortStates (branch_sync_state repo upstream))
      (branch_sync_state repo upstream) := by
    rw [sortStates]
    exact perm_insertionSort _ _
  have hmem : ∀ b, b ∈ force_pushes_of repo upstream ↔
      ∃ st ∈ branch_sync_state repo upstream,
        st.status = some BranchSyncStatus.LOCAL_MODIFIED ∧
        st.local_branch = b := by
    intro b
    rw [force_pushes_of, pushesOfList]
    simp only [List.mem_map, List.mem_filter]
    constructor
    · rintro ⟨st, ⟨hst1, hst2⟩, rfl⟩
      exact ⟨st, hperm.mem_iff.mp hst1, by simpa using hst2, rfl⟩
    · rintro ⟨st, hst1, hst2, rfl⟩
      exact ⟨st, ⟨hperm.mem_iff.mpr hst1, by simpa using hst2⟩, rfl⟩
  have hfetch : fetch fails upstream false s0 =
      (Except.ok (), ⟨s0.current,
        s0.trace ++ [Eff.run ["git", "fetch", upstream, "--prune"]]⟩) := by
    rw [fetch, subprocess_run_wet_ok _ _ _ (hf _)]
    rfl
  obtain ⟨tr2, hloop, hp2, hreq⟩ := sync_remote_loop_reports verbose
    (sortStates (branch_sync_state repo upstream)) none []
    ⟨s0.current, s0.trace ++ [Eff.run ["git", "fetch", upstream, "--prune"]]⟩
  rw [show ([] : List String) ++
      pushesOfList (sortStates (branch_sync_state repo upstream)) =
      force_pushes_of repo upstream from by
    rw [List.nil_append, force_pushes_of]] at hloop
  have hfilter2 : tr2.filter (fun e => !(isPrint e)) = [] := by
    rw [List.filter_eq_nil_iff]
    intro e he
    simp [hp2 e he]
  have hrepmem : ∀ st ∈ branch_sync_state repo upstream,
      (st.status = some BranchSyncStatus.CONFLICTED ∨
        st.status = some BranchSyncStatus.REMOTE_MODIFIED) →
      Eff.print (optStatusStr st.status ++ " " ++ st.local_branch ++
        " " ++ st.remote_branch) ∈ tr2 := by
    intro st hstm hdisj
    apply hreq
    rw [reportsOf]
    apply List.mem_map_of_mem
    apply List.mem_filter.mpr
    refine ⟨hperm.mem_iff.mpr hstm, ?_⟩
    rcases hdisj with h | h <;> simp [h]
  have hcont : sync_remote repo upstream fails false verbose s0 =
      ((if !(force_pushes_of repo upstream).isEmpty then
          subprocess_run fails false (["git", "push", upstream, "-f"] ++
            force_pushes_of repo upstream)
        else printLine "Nothing to do"))
        ⟨s0.current, (s0.trace ++
          [Eff.run ["git", "fetch", upstream, "--prune"]]) ++ tr2⟩ := by
    rw [sync_remote, GitM_bind_apply, hfetch]
    dsimp only
    rw [GitM_bind_apply, hloop]
  cases hE : (force_pushes_of repo upstream).isEmpty with
  | true =>
    refine ⟨[Eff.run ["git", "fetch", upstream, "--prune"]] ++ tr2 ++
      [Eff.print "Nothing to do"], ?_, ?_, fun _ => by simp, hmem,
      fun st hstm hdisj => List.mem_append.mpr (Or.inl
        (List.mem_append.mpr (Or.inr (hrepmem st hstm hdisj))))⟩
    · rw [hcont, hE]
      simp [printLine, List.append_assoc]
    · simp only [List.filter_append, hfilter2, hE, if_true]
      simp [isPrint]
  | false =>
    refine ⟨[Eff.run ["git", "fetch", upstream, "--prune"]] ++ tr2 ++
      [Eff.run (["git", "push", upstream, "-f"] ++
        force_pushes_of repo upstream)], ?_, ?_,
      fun hc => by simp [hE] at hc, hmem,
      fun st hstm hdisj => List.mem_append.mpr (Or.inl
        (List.mem_append.mpr (Or.inr (hrepmem st hstm hdisj))))⟩
    · rw [hcont, hE]
      simp only [Bool.not_false, if_pos]
      rw [subprocess_run_wet_ok _ _ _ (hf _)]
      have hap : applyCmd (["git", "push", upstream, "-f"] ++
          force_pushes_of repo upstream)
          ⟨s0.current, (s0.trace ++
            [Eff.run ["git", "fetch", upstream, "--prune"]] ++ tr2) ++
            [Eff.run (["git", "push", upstream, "-f"] ++
              force_pushes_of repo upstream)]⟩ =
          ⟨s0.current, (s0.trace ++
            [Eff.run ["git", "fetch", upstream, "--prune"]] ++ tr2) ++
            [Eff.run (["git", "push", upstream, "-f"] ++
              force_pushes_of repo upstream)]⟩ := rfl
      rw [hap]
      simp [List.append_assoc]
    · simp only [List.filter_append, hfilter2, hE, if_false]
      simp [isPrint]

/-- Witness for C5 at `repoSyncRemote`: a `LOCAL_MODIFIED` `feature`
and a `CONFLICTED` `other`; the run executes exactly the fetch and one
batched push of `feature`, and the `CONFLICTED` pair's status line is
in the trace. -/
theorem sync_remote_batched_pushes_witness :
    ∃ tr, sync_remote repoSyncRemote "origin" (fun _ => false) false false
        ⟨"main", []⟩ = (Except.ok (), ⟨"main", tr⟩) ∧
      tr.filter (fun e => !(isPrint e)) =
        Eff.run ["git", "fetch", "origin", "--prune"] ::
          (if (force_pushes_of repoSyncRemote "origin").isEmpty then []
           else [Eff.run (["git", "push", "origin", "-f"] ++
             force_pushes_of repoSyncRemote "origin")]) ∧
      ((force_pushes_of repoSyncRemote "origin").isEmpty = true →
        Eff.print "Nothing to do" ∈ tr) ∧
      (∀ b, b ∈ force_pushes_of repoSyncRemote "origin" ↔
        ∃ st ∈ branch_sync_state repoSyncRemote "origin",
          st.status = some BranchSyncStatus.LOCAL_MODIFIED ∧
          st.local_branch = b) ∧
      (∀ st ∈ branch_sync_state repoSyncRemote "origin",
        (st.status = some BranchSyncStatus.CONFLICTED ∨
          st.status = some BranchSyncStatus.REMOTE_MODIFIED) →
        Eff.print (optStatusStr st.status ++ " " ++ st.local_branch ++
          " " ++ st.remote_branch) ∈ tr) :=
  sync_remote_batched_pushes repoSyncRemote "origin" (fun _ => false)
    false ⟨"main", []⟩ (fun _ => rfl)

/-- **C9**: the dry-run policy.  Each `subprocess_run` invocation with
the popped `dry_run` flag set prints `#  ` plus the formatted equivalent
command and changes nothing else; consequently a dry `sync_local` or
`sync_remote` run completes normally, leaves the checked-out branch
untouched, and appends only output lines — no command execution — to
the trace.  The classification consumed by both runs is
`branch_sync_state repo upstream`, a function only of the repository's
read-only queries, which the dry-run flag does not reach: the reported
classification is that of the real repository state. -/
theorem dry_run_policy (repo : Repo) (upstream : String)
    (fails : List String → Bool) (verbose : Bool) :
    (∀ args s, subprocess_run fails true args s =
      (Except.ok (), ⟨s.current,
        s.trace ++ [Eff.print ("#   " ++ format_command args)]⟩)) ∧
    StepsTo (sync_local repo upstream fails true) () ∧
    StepsTo (sync_remote repo upstream fails true verbose) () :=
  ⟨fun _ _ => rfl, sync_local_dry_steps repo upstream fails,
   sync_remote_dry_steps repo upstream fails verbose⟩

end Rebaseplan
